import Mathlib

/-!
Shallow embedding, over exact rational arithmetic, of the replay-memory /
return / loss subsystem of the IQA training code (`agent.py`, `train.py`).
Pure numerical computations of the source are transcribed as executable
Lean functions; network forward passes are treated as inputs (their outputs
appear as fields of the sampled-batch records, exactly as `get_dqn_loss` /
`get_actor_critic_loss` consume them).
-/

namespace IQA

/-- Arithmetic mean of a list, as computed by `torch.mean` on a 1-d tensor
(sum of the entries divided by their number). -/
def listMean (xs : List ℚ) : ℚ := xs.sum / xs.length

/-- Row minimum, as computed by `torch.min(ar, -1)` on a nonempty row. -/
def listMin : List ℚ → ℚ
  | [] => 0
  | x :: xs => xs.foldl min x

theorem listMin_le_head (xs : List ℚ) : ∀ a : ℚ, xs.foldl min a ≤ a := by
  induction xs with
  | nil => intro a; simp
  | cons y ys ih =>
    intro a
    calc (y :: ys).foldl min a = ys.foldl min (min a y) := rfl
    _ ≤ min a y := ih (min a y)
    _ ≤ a := min_le_left _ _

theorem listMin_le_mem {y : ℚ} {xs : List ℚ} (hy : y ∈ xs) :
    ∀ a : ℚ, xs.foldl min a ≤ y := by
  induction xs with
  | nil => cases hy
  | cons z zs ih =>
    intro a
    rcases List.mem_cons.mp hy with h | h
    · subst h
      calc (y :: zs).foldl min a = zs.foldl min (min a y) := rfl
      _ ≤ min a y := listMin_le_head zs (min a y)
      _ ≤ y := min_le_right _ _
    · exact ih h (min a z)

theorem listMin_le {y : ℚ} {xs : List ℚ} (hy : y ∈ xs) : listMin xs ≤ y := by
  cases xs with
  | nil => cases hy
  | cons z zs =>
    rcases List.mem_cons.mp hy with h | h
    · subst h; exact listMin_le_head zs y
    · exact listMin_le_mem h z

/-- Index of the (first) maximal entry of a row, modelling `torch.argmax(ar, -1)`. -/
def argmaxIdx (xs : List ℚ) : ℕ :=
  match xs.maximum with
  | none => 0
  | some m => xs.indexOf m

theorem argmaxIdx_lt_length {xs : List ℚ} (h : xs ≠ []) : argmaxIdx xs < xs.length := by
  unfold argmaxIdx
  rcases hm : xs.maximum with _ | m
  · exact absurd (List.maximum_eq_none.mp hm) h
  · exact List.indexOf_lt_length.mpr (List.maximum_mem hm)

theorem argmaxIdx_attains {xs : List ℚ} (h : xs ≠ []) (hlt : argmaxIdx xs < xs.length) :
    ∀ y ∈ xs, y ≤ xs[argmaxIdx xs] := by
  intro y hy
  rcases hm : xs.maximum with _ | m
  · exact absurd (List.maximum_eq_none.mp hm) h
  · have hidx : xs.indexOf m < xs.length := List.indexOf_lt_length.mpr (List.maximum_mem hm)
    have hle : y ≤ m := by
      have := List.le_maximum_of_mem hy hm
      exact_mod_cast this
    have hget : xs[argmaxIdx xs] = m := by
      simp only [argmaxIdx, hm]
      exact List.getElem_indexOf hidx
    rw [hget]; exact hle

/-! ## Monte-Carlo returns (`get_actor_critic_loss`, agent.py lines 1070-1082)

The source iterates over `rewards[::-1]` (paired with `is_finals[::-1]`),
keeps a running accumulator `Gt` (initially `0.0`), sets `Gt = 0` at a
terminal flag before accumulating that step's reward, and prepends each
`Gt` to the result via `returns.insert(0, Gt)`. -/

/-- One iteration of the backward loop: the state is the pair
(accumulator `Gt`, returns list built so far); `x` is the pair
(reward, is_final) of the step being processed. -/
def mcStep (gamma : ℚ) (st : ℚ × List ℚ) (x : ℚ × Bool) : ℚ × List ℚ :=
  let g0 : ℚ := if x.2 then 0 else st.1
  let g1 : ℚ := x.1 + gamma * g0
  (g1, g1 :: st.2)

/-- The backward loop over the reversed (reward, is_final) sequence. -/
def mcRun (gamma : ℚ) (steps : List (ℚ × Bool)) : List ℚ :=
  (steps.reverse.foldl (mcStep gamma) (0, [])).2

/-- `compute_returns`: the Monte-Carlo returns of `get_actor_critic_loss`,
with rewards and terminal flags given as parallel lists. -/
def computeReturns (gamma : ℚ) (rewards : List ℚ) (finals : List Bool) : List ℚ :=
  mcRun gamma (rewards.zip finals)

theorem mcFold_fst_eq_head (gamma : ℚ) (l : List (ℚ × Bool)) :
    ∀ st : ℚ × List ℚ, st.1 = st.2.headD 0 →
      ((l.foldl (mcStep gamma) st).1 = (l.foldl (mcStep gamma) st).2.headD 0) := by
  induction l with
  | nil => intro st h; exact h
  | cons x xs ih =>
    intro st _
    simp only [List.foldl_cons]
    exact ih (mcStep gamma st x) rfl

theorem mcRun_cons (gamma : ℚ) (x : ℚ × Bool) (steps : List (ℚ × Bool)) :
    mcRun gamma (x :: steps) =
      (x.1 + gamma * (if x.2 then 0 else (mcRun gamma steps).headD 0)) ::
        mcRun gamma steps := by
  unfold mcRun
  rw [List.reverse_cons, List.foldl_append]
  have h := mcFold_fst_eq_head gamma steps.reverse ((0 : ℚ), ([] : List ℚ)) (by simp)
  simp only [List.foldl_cons, List.foldl_nil, mcStep]
  rw [h]

theorem mcRun_length (gamma : ℚ) (steps : List (ℚ × Bool)) :
    (mcRun gamma steps).length = steps.length := by
  induction steps with
  | nil => rfl
  | cons x xs ih => rw [mcRun_cons]; simp [ih]

theorem computeReturns_length (gamma : ℚ) (rewards : List ℚ) (finals : List Bool) :
    (computeReturns gamma rewards finals).length = min rewards.length finals.length := by
  unfold computeReturns
  rw [mcRun_length, List.length_zip]

theorem headD_eq_getD (l : List ℚ) : l.headD 0 = l.getD 0 0 := by
  cases l <;> rfl

/-- The backward recursion satisfied by the returns: at every position `t`,
`G_t = r_t + gamma * (0 if terminal at t else G_{t+1})`, with `G` past the
end of the list read as `0`. -/
theorem mcRun_getD (gamma : ℚ) (steps : List (ℚ × Bool)) :
    ∀ t, t < steps.length →
      (mcRun gamma steps).getD t 0 =
        (steps.getD t (0, false)).1 +
          gamma * (if (steps.getD t (0, false)).2 then 0
                   else (mcRun gamma steps).getD (t + 1) 0) := by
  induction steps with
  | nil => intro t ht; cases ht
  | cons x xs ih =>
    intro t ht
    cases t with
    | zero =>
      rw [mcRun_cons]
      simp only [List.getD_cons_zero, List.getD_cons_succ]
      rw [headD_eq_getD]
    | succ n =>
      rw [mcRun_cons]
      simp only [List.getD_cons_succ]
      exact ih n (by simpa using ht)

/-! ## Actor-critic loss (`get_actor_critic_loss`, agent.py lines 977-1118)

One stored step of the single-episode storage, as consumed by the loss:
per-step reward, the value estimate recorded at action time, the per-slot
log-probabilities and entropies (three command slots: verb, modifier,
noun), and the terminal flag.  The ICM (curiosity) branch is disabled
(`self.icm = False`), so the returned loss is `actor_critic_loss` itself. -/

structure A2CStep where
  reward : ℚ
  stateValue : ℚ
  logProbs : Fin 3 → ℚ
  entropies : Fin 3 → ℚ
  isFinal : Bool

/-- Default step used only as a `getD` fallback. -/
def A2CStep.dflt : A2CStep := ⟨0, 0, fun _ => 0, fun _ => 0, false⟩

/-- `returns` as computed in `get_actor_critic_loss`. -/
def a2cReturns (gamma : ℚ) (steps : List A2CStep) : List ℚ :=
  computeReturns gamma (steps.map (·.reward)) (steps.map (·.isFinal))

/-- `advantage = returns - state_values * finals_mask`, where
`finals_mask = 1 - is_finals` elementwise (agent.py lines 1008 and 1086). -/
def a2cAdvantage (gamma : ℚ) (steps : List A2CStep) : List ℚ :=
  (a2cReturns gamma steps).zipWith
    (fun g s => g - s.stateValue * (if s.isFinal then 0 else 1)) steps

/-- `entropy_loss`: mean of the stacked `T x 3` entropy tensor
(agent.py line 1095). -/
def a2cEntropyLoss (steps : List A2CStep) : ℚ :=
  (steps.map (fun s => ∑ i : Fin 3, s.entropies i)).sum / (3 * steps.length)

/-- The slot-`i` summand of the policy loss:
`(-concat_probs[:, i] * advantage.detach()).mean()` (agent.py line 1100). -/
def a2cPolicySlot (gamma : ℚ) (steps : List A2CStep) (i : Fin 3) : ℚ :=
  listMean ((steps.zip (a2cAdvantage gamma steps)).map
    (fun p => -(p.1.logProbs i) * p.2))

/-- `policy_losses`: the accumulation loop `for i in range(3): policy_losses += ...`
starting from `0.0` (agent.py lines 1097-1102). -/
def a2cPolicyLoss (gamma : ℚ) (steps : List A2CStep) : ℚ :=
  (List.finRange 3).foldl (fun acc i => acc + a2cPolicySlot gamma steps i) 0

/-- `value_losses = 0.5 * advantage.pow(2).mean()` (agent.py line 1104). -/
def a2cValueLoss (gamma : ℚ) (steps : List A2CStep) : ℚ :=
  (1 / 2) * listMean ((a2cAdvantage gamma steps).map (fun a => a ^ 2))

/-- `actor_critic_loss = policy_losses + value_losses - entropy_coeff * entropy_loss`
(agent.py lines 1107-1109). -/
def actorCriticTotal (gamma entropyCoeff : ℚ) (steps : List A2CStep) : ℚ :=
  a2cPolicyLoss gamma steps + a2cValueLoss gamma steps -
    entropyCoeff * a2cEntropyLoss steps

/-- Modelled from the spec: `SingleEpisodeStorage.get_batch` (the module
`command_generation_memory.py` is not under `src/`); per section 4.3 of the
spec it returns the entire stored sequence as-is, or `None` if empty. -/
def singleEpisodeGetBatch (store : List A2CStep) : Option (List A2CStep) :=
  if store.isEmpty then none else some store

/-- `get_actor_critic_loss`: returns `None` when the episode storage yields
no batch, otherwise the actor-critic loss (ICM disabled). -/
def getActorCriticLoss (gamma entropyCoeff : ℚ) (store : List A2CStep) : Option ℚ :=
  match singleEpisodeGetBatch store with
  | none => none
  | some steps => some (actorCriticTotal gamma entropyCoeff steps)

theorem a2cReturns_length (gamma : ℚ) (steps : List A2CStep) :
    (a2cReturns gamma steps).length = steps.length := by
  unfold a2cReturns
  rw [computeReturns_length]
  simp

theorem a2cAdvantage_length (gamma : ℚ) (steps : List A2CStep) :
    (a2cAdvantage gamma steps).length = steps.length := by
  unfold a2cAdvantage
  rw [List.length_zipWith, a2cReturns_length, min_self]

/-! ## `choose_maxQ_command` (agent.py lines 603-629)

Per batch row and command slot the source shifts the scores by
`ar - torch.min(ar, -1) + 1e-2`, multiplies by the word mask when given,
and takes `torch.argmax`. -/

/-- The per-row computation of `choose_maxQ_command`: shift the scores so
every entry is at least `1/100`, zero the masked-out entries, take the
argmax. -/
def chooseMaxQRow (scores mask : List ℚ) : ℕ :=
  argmaxIdx ((scores.map (fun s => s - listMin scores + 1 / 100)).zipWith
    (fun s m => s * m) mask)

/-! ## DQN loss, non-distributional path (`get_dqn_loss`, agent.py lines 1120-1322)

One element of the sampled batch, carrying exactly what `get_dqn_loss`
consumes after network evaluation: the n-step reward sum, `actual_n`, the
online net's gathered Q-values at the chosen indices (`word_qvalues`), and
the next-state score rows and word masks of the three command slots from
both networks. -/

structure DqnSample where
  reward : ℚ
  actualN : ℕ
  curQ : Fin 3 → ℚ
  nextOnlineRanks : Fin 3 → List ℚ
  nextTargetRanks : Fin 3 → List ℚ
  nextMask : Fin 3 → List ℚ

/-- Modelled from the spec: `PrioritizedReplayMemory.get_batch`
(`command_generation_memory.py` is not under `src/`) walks forward up to
`n` steps and, per section 4.2 of the spec, the next state may be "the
terminal state if the episode ended early"; this record pairs a batch
element with that episode-termination status.  The flag is NOT part of the
data `get_batch` hands to `get_dqn_loss` (the eleven-field unpacking at
agent.py lines 1136-1148 has no terminal flag). -/
structure SampledElement where
  sample : DqnSample
  isTerminal : Bool

/-- `next_word_indices`: argmax under the online network when double-DQN is
enabled, under the target network otherwise (agent.py lines 1254-1296). -/
def nextSlotIdx (doubleDqn : Bool) (s : DqnSample) (i : Fin 3) : ℕ :=
  chooseMaxQRow (if doubleDqn then s.nextOnlineRanks i else s.nextTargetRanks i)
    (s.nextMask i)

/-- `next_word_qvalues`: the target network's score at the selected index. -/
def nextSlotValue (doubleDqn : Bool) (s : DqnSample) (i : Fin 3) : ℚ :=
  (s.nextTargetRanks i).getD (nextSlotIdx doubleDqn s i) 0

/-- `next_q_value = torch.mean(torch.stack(next_word_qvalues, -1), -1)`:
average of the three slots (agent.py line 1302). -/
def nextQValue (doubleDqn : Bool) (s : DqnSample) : ℚ :=
  (∑ i : Fin 3, nextSlotValue doubleDqn s i) / 3

/-- `q_value`: average of the three gathered online slot values
(agent.py line 1247). -/
def qValue (s : DqnSample) : ℚ := (∑ i : Fin 3, s.curQ i) / 3

/-- `discount = gamma ** actual_n` (agent.py lines 1306-1310). -/
def dqnDiscount (gamma : ℚ) (s : DqnSample) : ℚ := gamma ^ s.actualN

/-- The bootstrap target `rewards + next_q_value * discount`
(agent.py line 1312). -/
def dqnTarget (doubleDqn : Bool) (gamma : ℚ) (s : DqnSample) : ℚ :=
  s.reward + nextQValue doubleDqn s * dqnDiscount gamma s

/-- `F.smooth_l1_loss` elementwise (beta = 1):
`0.5 (x-y)^2` if `|x-y| < 1`, else `|x-y| - 0.5`. -/
def smoothL1 (x y : ℚ) : ℚ :=
  if |x - y| < 1 then (x - y) ^ 2 / 2 else |x - y| - 1 / 2

/-- `dqn_loss = F.smooth_l1_loss(q_value, rewards)` with mean reduction
(agent.py line 1313). -/
def dqnLossNonDist (doubleDqn : Bool) (gamma : ℚ) (batch : List DqnSample) : ℚ :=
  listMean (batch.map (fun s => smoothL1 (qValue s) (dqnTarget doubleDqn gamma s)))

/-- `get_dqn_loss` None-handling (agent.py lines 1127-1134): returns `None`
when fewer transitions are stored than `replay_batch_size`, or when
`get_batch` yields no data. -/
def getDqnLossOpt (doubleDqn : Bool) (gamma : ℚ) (memLen replayBatchSize : ℕ)
    (batchData : Option (List DqnSample)) : Option ℚ :=
  if memLen < replayBatchSize then none
  else
    match batchData with
    | none => none
    | some batch => some (dqnLossNonDist doubleDqn gamma batch)

/-- `update_interaction` (agent.py lines 1371-1400): when the loss is `None`
it returns `None` before any backward pass; otherwise it backpropagates
`loss * interaction_loss_lambda`, steps the optimizer, and returns the mean
interaction loss.  The boolean records whether the backward pass and
optimizer step were performed. -/
def updateInteraction (lossOpt : Option ℚ) : Option ℚ × Bool :=
  match lossOpt with
  | none => (none, false)
  | some l => (some l, true)

/-! ## Categorical (C51) projection (`get_dqn_loss`, agent.py lines 1324-1357)

For one batch element: `Tz = clamp(rewards + discount * support, v_min, v_max)`,
`b = (Tz - v_min) / delta_z`, `l = floor(b)`, `u = ceil(b)`, the in-place
nudges `l[(u > 0) * (l == u)] -= 1` then `u[(l < atoms-1) * (l == u)] += 1`
(the second test reads the already-updated `l`), and the mass distribution
`m[l] += p * (u - b)`, `m[u] += p * (b - l)`. -/

structure ProjConfig where
  atoms : ℕ
  vMin : ℚ
  vMax : ℚ
  reward : ℚ
  discount : ℚ

/-- `delta_z = (v_max - v_min) / (atoms - 1)` (agent.py line 213). -/
def deltaZ (c : ProjConfig) : ℚ := (c.vMax - c.vMin) / ((c.atoms : ℚ) - 1)

/-- `support = torch.linspace(v_min, v_max, atoms)` (agent.py lines 209-211). -/
def supportAtom (c : ProjConfig) (j : ℕ) : ℚ := c.vMin + (j : ℚ) * deltaZ c

/-- `Tz = (rewards + discount * support).clamp(min=v_min, max=v_max)`. -/
def tzClamped (c : ProjConfig) (j : ℕ) : ℚ :=
  min c.vMax (max c.vMin (c.reward + c.discount * supportAtom c j))

/-- `b = (Tz - v_min) / delta_z`. -/
def bProj (c : ProjConfig) (j : ℕ) : ℚ := (tzClamped c j - c.vMin) / deltaZ c

/-- `l = b.floor()`. -/
def lFloor (c : ProjConfig) (j : ℕ) : ℤ := ⌊bProj c j⌋

/-- `u = b.ceil()`. -/
def uCeil (c : ProjConfig) (j : ℕ) : ℤ := ⌈bProj c j⌉

/-- The first nudge `l[(u > 0) * (l == u)] -= 1`. -/
def lNudge (c : ProjConfig) (j : ℕ) : ℤ :=
  if 0 < uCeil c j ∧ lFloor c j = uCeil c j then lFloor c j - 1 else lFloor c j

/-- The second nudge `u[(l < (atoms - 1)) * (l == u)] += 1`, reading the
already-nudged `l`. -/
def uNudge (c : ProjConfig) (j : ℕ) : ℤ :=
  if lNudge c j < (c.atoms : ℤ) - 1 ∧ lNudge c j = uCeil c j then uCeil c j + 1
  else uCeil c j

/-- The projected target distribution `m` for one batch element, as a
function of the atom index: the two `index_add_` calls accumulate, for each
source atom `j`, mass `p j * (u - b)` at `l` and `p j * (b - l)` at `u`. -/
def projectedDist (c : ProjConfig) (p : ℕ → ℚ) (k : ℤ) : ℚ :=
  ∑ j ∈ Finset.range c.atoms,
    p j * ((if lNudge c j = k then (uNudge c j : ℚ) - bProj c j else 0) +
           (if uNudge c j = k then bProj c j - (lNudge c j : ℚ) else 0))

theorem deltaZ_pos (c : ProjConfig) (h2 : 2 ≤ c.atoms) (hv : c.vMin < c.vMax) :
    0 < deltaZ c := by
  apply div_pos (by linarith)
  have : (2 : ℚ) ≤ (c.atoms : ℚ) := by exact_mod_cast h2
  linarith

theorem bProj_nonneg (c : ProjConfig) (h2 : 2 ≤ c.atoms) (hv : c.vMin < c.vMax)
    (j : ℕ) : 0 ≤ bProj c j := by
  apply div_nonneg _ (le_of_lt (deltaZ_pos c h2 hv))
  have h1 : c.vMin ≤ max c.vMin (c.reward + c.discount * supportAtom c j) :=
    le_max_left _ _
  have h3 : c.vMin ≤ c.vMax := le_of_lt hv
  have : c.vMin ≤ tzClamped c j := le_min h3 h1
  linarith

theorem bProj_le (c : ProjConfig) (h2 : 2 ≤ c.atoms) (hv : c.vMin < c.vMax)
    (j : ℕ) : bProj c j ≤ (c.atoms : ℚ) - 1 := by
  have hdz := deltaZ_pos c h2 hv
  have htz : tzClamped c j ≤ c.vMax := min_le_left _ _
  have hne : (c.atoms : ℚ) - 1 ≠ 0 := by
    have : (2 : ℚ) ≤ (c.atoms : ℚ) := by exact_mod_cast h2
    intro h; linarith
  rw [bProj, div_le_iff₀ hdz]
  have hmul : ((c.atoms : ℚ) - 1) * deltaZ c = c.vMax - c.vMin := by
    rw [deltaZ, mul_div_assoc']
    rw [mul_comm]
    exact mul_div_cancel_right₀ _ hne
  rw [hmul]
  linarith

/-- After the two nudges the lower and upper bin indices always differ by
exactly one and both lie inside the support range. -/
theorem nudge_facts (c : ProjConfig) (h2 : 2 ≤ c.atoms) (hv : c.vMin < c.vMax)
    (j : ℕ) :
    uNudge c j = lNudge c j + 1 ∧ 0 ≤ lNudge c j ∧
      uNudge c j ≤ (c.atoms : ℤ) - 1 := by
  have hb0 := bProj_nonneg c h2 hv j
  have hb1 := bProj_le c h2 hv j
  have hl0 : 0 ≤ lFloor c j := by
    rw [lFloor, Int.le_floor]; exact_mod_cast hb0
  have hu1 : uCeil c j ≤ (c.atoms : ℤ) - 1 := by
    rw [uCeil, Int.ceil_le]; push_cast; exact hb1
  have hlu : lFloor c j ≤ uCeil c j := Int.floor_le_ceil _
  have hul1 : uCeil c j ≤ lFloor c j + 1 := Int.ceil_le_floor_add_one _
  have hatoms : (2 : ℤ) ≤ (c.atoms : ℤ) := by exact_mod_cast h2
  by_cases heq : lFloor c j = uCeil c j
  · by_cases hu0 : 0 < uCeil c j
    · have hlN : lNudge c j = lFloor c j - 1 := by
        rw [lNudge, if_pos ⟨hu0, heq⟩]
      have huN : uNudge c j = uCeil c j := by
        rw [uNudge, if_neg]
        rintro ⟨-, habs⟩
        rw [hlN, heq] at habs
        omega
      refine ⟨by rw [huN, hlN, heq]; ring, by rw [hlN]; omega, by rw [huN]; exact hu1⟩
    · have hz : lFloor c j = 0 := by omega
      have hlN : lNudge c j = lFloor c j := by
        rw [lNudge, if_neg]
        rintro ⟨habs, -⟩
        exact hu0 habs
      have huN : uNudge c j = uCeil c j + 1 := by
        rw [uNudge, if_pos]
        constructor
        · rw [hlN, hz]; omega
        · rw [hlN, heq]
      refine ⟨by rw [huN, hlN, heq], by rw [hlN]; exact hl0, by rw [huN]; omega⟩
  · have hsucc : uCeil c j = lFloor c j + 1 := by omega
    have hlN : lNudge c j = lFloor c j := by
      rw [lNudge, if_neg]
      rintro ⟨-, habs⟩
      exact heq habs
    have huN : uNudge c j = uCeil c j := by
      rw [uNudge, if_neg]
      rintro ⟨-, habs⟩
      rw [hlN] at habs
      exact heq habs
    exact ⟨by rw [huN, hlN, hsucc], by rw [hlN]; exact hl0, by rw [huN]; exact hu1⟩

/-- Mass conservation of the categorical projection: when the next-state
distribution sums to one, so does the projected distribution `m`. -/
theorem projectedDist_sum (c : ProjConfig) (p : ℕ → ℚ) (h2 : 2 ≤ c.atoms)
    (hv : c.vMin < c.vMax) (hp1 : ∑ j ∈ Finset.range c.atoms, p j = 1) :
    ∑ k ∈ Finset.Icc (0 : ℤ) ((c.atoms : ℤ) - 1), projectedDist c p k = 1 := by
  unfold projectedDist
  rw [Finset.sum_comm]
  have hj : ∀ j ∈ Finset.range c.atoms,
      (∑ k ∈ Finset.Icc (0 : ℤ) ((c.atoms : ℤ) - 1),
        p j * ((if lNudge c j = k then (uNudge c j : ℚ) - bProj c j else 0) +
               (if uNudge c j = k then bProj c j - (lNudge c j : ℚ) else 0))) = p j := by
    intro j _
    obtain ⟨hdiff, hl0, hu1⟩ := nudge_facts c h2 hv j
    have hmemL : lNudge c j ∈ Finset.Icc (0 : ℤ) ((c.atoms : ℤ) - 1) := by
      rw [Finset.mem_Icc]; omega
    have hmemU : uNudge c j ∈ Finset.Icc (0 : ℤ) ((c.atoms : ℤ) - 1) := by
      rw [Finset.mem_Icc]; omega
    rw [← Finset.mul_sum, Finset.sum_add_distrib, Finset.sum_ite_eq,
      Finset.sum_ite_eq, if_pos hmemL, if_pos hmemU]
    have : ((uNudge c j : ℚ) - bProj c j) + (bProj c j - (lNudge c j : ℚ)) = 1 := by
      have hcast : (uNudge c j : ℚ) = (lNudge c j : ℚ) + 1 := by
        exact_mod_cast congrArg (Int.cast : ℤ → ℚ) hdiff
      rw [hcast]; ring
    rw [this, mul_one]
  rw [Finset.sum_congr rfl hj, hp1]

/-! ## Trajectory assembly and reward shaping (`train`, train.py)

Per game `b` and step `i` the training loop has: the sufficient-information
reward, the counting bonus, the valid-command bonus, the intrinsic
curiosity reward, the raw environment reward (discarded at
`obs, _, _, infos = env.step(commands)`, train.py line 263), and the
interaction mask `masks_np[i][b]` (a 0/1 float, modelled as `Bool`). -/

structure StepData where
  suffReward : ℚ
  countReward : ℚ
  validReward : ℚ
  intrinsicReward : ℚ
  envReward : ℚ
  mask : Bool

/-- Default step used only as a `getD` fallback. -/
def StepData.dflt : StepData := ⟨0, 0, 0, 0, 0, false⟩

/-- The game-running mask value of a step (`game_running_mask.T[b][i]`). -/
def maskVal (s : StepData) : ℚ := if s.mask then 1 else 0

/-- `command_rewards_np` entry (train.py line 411) plus the optional masked
intrinsic reward (train.py lines 415-417):
`suff + count * mask * revisit_lambda + valid * mask * vc_lambda
  (+ intrinsic * mask  when intrinsic reward is enabled)`. -/
def commandReward (useIntrinsic : Bool) (lamCount lamValid : ℚ) (s : StepData) : ℚ :=
  s.suffReward + s.countReward * maskVal s * lamCount +
    s.validReward * maskVal s * lamValid +
    (if useIntrinsic then s.intrinsicReward * maskVal s else 0)

/-- A Transition as pushed into the command-generation replay memory
(only the fields the claims are about). -/
structure PushedTransition where
  reward : ℚ
  isFinal : Bool

/-- The per-game push loop (train.py lines 433-461): for each step in order,
`is_final = (masks_np[i][b] == 0)`, push a Transition carrying the shaped
`command_rewards[:, i][b]`, and break right after the first step whose mask
is zero. -/
def pushTrajectory (useIntrinsic : Bool) (lamCount lamValid : ℚ) :
    List StepData → List PushedTransition
  | [] => []
  | s :: rest =>
    if s.mask then
      ⟨commandReward useIntrinsic lamCount lamValid s, false⟩ ::
        pushTrajectory useIntrinsic lamCount lamValid rest
    else [⟨commandReward useIntrinsic lamCount lamValid s, true⟩]

/-- The step loop building `transition_cache` (train.py lines 224-324),
restricted to the interaction-mask column it caches: `rows stepNo` is the
batch mask produced by `agent.act` at that step; at the last permitted step
the mask is overwritten with zeros (`replay_info[-1] = torch.zeros_like`,
train.py lines 319-320); the loop breaks at the step cap or, after the
first step, when the whole batch mask sums to zero (train.py line 323). -/
def transitionCacheMasks (rows : ℕ → ℕ → Bool) (batchSize maxSteps stepNo : ℕ) :
    List (ℕ → Bool) :=
  if h : stepNo < maxSteps then
    let row := if stepNo = maxSteps - 1 then (fun _ => false) else rows stepNo
    if stepNo = maxSteps - 1 ∨
        (0 < stepNo ∧ (List.range batchSize).all (fun i => !row i)) then [row]
    else row :: transitionCacheMasks rows batchSize maxSteps (stepNo + 1)
  else []
termination_by maxSteps - stepNo
decreasing_by omega

/-- The cached mask column of any game contains a zero: either the loop
stopped at the step cap (whose mask row was forced to zero) or because the
whole batch mask was zero. -/
theorem cache_column_has_false_aux (rows : ℕ → ℕ → Bool) (batchSize maxSteps : ℕ) :
    ∀ fuel stepNo, maxSteps - stepNo ≤ fuel → stepNo < maxSteps → ∀ b < batchSize,
      false ∈ (transitionCacheMasks rows batchSize maxSteps stepNo).map
        (fun r => r b) := by
  intro fuel
  induction fuel with
  | zero => intro stepNo hle hlt; omega
  | succ n ih =>
    intro stepNo hle hlt b hb
    rw [transitionCacheMasks, dif_pos hlt]
    by_cases hbr : stepNo = maxSteps - 1 ∨
        (0 < stepNo ∧ (List.range batchSize).all
          (fun i => !(if stepNo = maxSteps - 1 then (fun _ => false)
                      else rows stepNo) i))
    · rw [if_pos hbr]
      simp only [List.map_cons, List.map_nil, List.mem_singleton]
      rcases hbr with hcap | ⟨-, hall⟩
      · simp [hcap]
      · have := List.all_eq_true.mp hall b (List.mem_range.mpr hb)
        simpa using this.symm
    · rw [if_neg hbr]
      have hcap : stepNo ≠ maxSteps - 1 := fun h => hbr (Or.inl h)
      have hnext : stepNo + 1 < maxSteps := by omega
      have hrec := ih (stepNo + 1) (by omega) hnext b hb
      simp only [List.map_cons, List.mem_cons]
      exact Or.inr hrec

/-- The cached mask column of any game contains a zero. -/
theorem cache_column_has_false (rows : ℕ → ℕ → Bool) (batchSize maxSteps : ℕ)
    (h1 : 1 ≤ maxSteps) (b : ℕ) (hb : b < batchSize) :
    false ∈ (transitionCacheMasks rows batchSize maxSteps 0).map (fun r => r b) :=
  cache_column_has_false_aux rows batchSize maxSteps maxSteps 0 (by omega)
    (by omega) b hb

/-! ## State-visitation counter (`get_binarized_count`, agent.py lines 1629-1655)

The per-environment dictionary is modelled as a total function from the
observation key to its stored count (keys never inserted have count `0`;
the source's `dict[key] = 0.0` insertion of an absent key is the identity
under this reading). -/

/-- One environment's turn of the loop body: insert the key with count 0 if
absent, add 1 when `update`, and return `float(count == 1.0)` together with
the updated dictionary. -/
def binarizedCountOne (dict : String → ℚ) (key : String) (update : Bool) :
    ℚ × (String → ℚ) :=
  let d1 : String → ℚ :=
    fun k => if k = key then (if update then dict key + 1 else dict key) else dict k
  ((if d1 key = 1 then 1 else 0), d1)

/-- `get_binarized_count`: loop over the batch, environment `i` reading and
writing only its own dictionary `binarized_counter_dict[i]`. -/
def getBinarizedCount (dicts : List (String → ℚ)) (obs : List String)
    (update : Bool) : List ℚ × List (String → ℚ) :=
  match dicts, obs with
  | d :: ds, k :: ks =>
    let one := binarizedCountOne d k update
    let rest := getBinarizedCount ds ks update
    (one.1 :: rest.1, one.2 :: rest.2)
  | ds, [] => ([], ds)
  | [], _ :: _ => ([], [])

/-- `reset_binarized_counter`: `[{} for _ in range(batch_size)]`
(agent.py lines 1629-1633). -/
def resetBinarizedCounter (batchSize : ℕ) : List (String → ℚ) :=
  List.replicate batchSize (fun _ => 0)

/-! ## Helper lemmas used by the claim theorems -/

theorem pushTrajectory_reward (u : Bool) (lc lv : ℚ) :
    ∀ (traj : List StepData) (t : ℕ),
      t < (pushTrajectory u lc lv traj).length →
      ((pushTrajectory u lc lv traj).getD t ⟨0, false⟩).reward =
        commandReward u lc lv (traj.getD t StepData.dflt) := by
  intro traj
  induction traj with
  | nil => intro t ht; simp [pushTrajectory] at ht
  | cons s rest ih =>
    intro t ht
    by_cases hm : s.mask
    · simp only [pushTrajectory, if_pos hm] at ht ⊢
      cases t with
      | zero => rfl
      | succ n =>
        simp only [List.getD_cons_succ]
        exact ih n (by simpa using ht)
    · simp only [pushTrajectory, if_neg hm] at ht ⊢
      cases t with
      | zero => rfl
      | succ n => simp at ht

theorem pushed_finals_shape (u : Bool) (lc lv : ℚ) :
    ∀ traj : List StepData, (∃ s ∈ traj, s.mask = false) →
      ∃ k, (pushTrajectory u lc lv traj).map (·.isFinal) =
        List.replicate k false ++ [true] := by
  intro traj
  induction traj with
  | nil => rintro ⟨s, hs, -⟩; cases hs
  | cons s rest ih =>
    rintro ⟨w, hw, hwm⟩
    by_cases hm : s.mask
    · have hw' : w ∈ rest := by
        rcases List.mem_cons.mp hw with h | h
        · rw [h, hm] at hwm; cases hwm
        · exact h
      obtain ⟨k, hk⟩ := ih ⟨w, hw', hwm⟩
      refine ⟨k + 1, ?_⟩
      simp only [pushTrajectory, if_pos hm, List.map_cons, hk, List.replicate_succ,
        List.cons_append]
    · exact ⟨0, by simp [pushTrajectory, hm]⟩

theorem foldl_slot_sum (f : Fin 3 → ℚ) :
    (List.finRange 3).foldl (fun acc i => acc + f i) 0 = ∑ i : Fin 3, f i := by
  rw [Fin.sum_univ_three]
  show 0 + f 0 + f 1 + f 2 = f 0 + f 1 + f 2
  ring

theorem resetBinarizedCounter_getD (n i : ℕ) :
    (resetBinarizedCounter n).getD i (fun _ => 0) = (fun _ => (0 : ℚ)) := by
  induction n generalizing i with
  | zero => cases i <;> rfl
  | succ m ih =>
    cases i with
    | zero => rfl
    | succ j => exact ih j

/-! ## Claim theorems -/

/-- C1: in actor-critic mode the Monte-Carlo returns satisfy
`G_t = r_t + gamma * G_{t+1}` iterating backward, with `G` reset to `0` at a
terminal flag before that step's reward is accumulated; for rewards
`[1,1,1]` with only the last step terminal and `gamma = 1/2` the returns
are exactly `[1.75, 1.5, 1.0]`. -/
theorem monte_carlo_returns_recursion :
    (∀ (gamma : ℚ) (rewards : List ℚ) (finals : List Bool),
        rewards.length = finals.length →
        ∀ t, t < rewards.length →
          (computeReturns gamma rewards finals).getD t 0 =
            rewards.getD t 0 +
              gamma * (if finals.getD t false then 0
                       else (computeReturns gamma rewards finals).getD (t + 1) 0)) ∧
    computeReturns (1 / 2) [1, 1, 1] [false, false, true] = [7 / 4, 3 / 2, 1] := by
  constructor
  · intro gamma rewards finals hlen t ht
    have hzip : t < (rewards.zip finals).length := by
      rw [List.length_zip]; omega
    have h := mcRun_getD gamma (rewards.zip finals) t hzip
    have hr : t < rewards.length := ht
    have hf : t < finals.length := by omega
    have hget : (rewards.zip finals).getD t (0, false) =
        (rewards.getD t 0, finals.getD t false) := by
      rw [List.getD_eq_getElem _ _ hzip, List.getElem_zip,
        List.getD_eq_getElem _ _ hr, List.getD_eq_getElem _ _ hf]
    rw [computeReturns, h, hget]
  · show mcRun (1 / 2) (([1, 1, 1] : List ℚ).zip [false, false, true]) = [7 / 4, 3 / 2, 1]
    simp only [List.zip_cons_cons, List.zip_nil_right, mcRun, List.reverse_cons,
      List.reverse_nil, List.nil_append, List.cons_append, List.foldl_cons,
      List.foldl_nil, mcStep]
    norm_num

/-- C1 witness: the recursion instantiated at the concrete trajectory of the
claim, at position `t = 0`. -/
theorem monte_carlo_returns_recursion_witness :
    (([1, 1, 1] : List ℚ).length = ([false, false, true] : List Bool).length ∧
      0 < ([1, 1, 1] : List ℚ).length) ∧
    (computeReturns (1 / 2) [1, 1, 1] [false, false, true]).getD 0 0 =
      ([1, 1, 1] : List ℚ).getD 0 0 +
        (1 / 2) * (if ([false, false, true] : List Bool).getD 0 false then 0
                   else (computeReturns (1 / 2) [1, 1, 1] [false, false, true]).getD 1 0) :=
  ⟨⟨rfl, by decide⟩,
    monte_carlo_returns_recursion.1 (1 / 2) [1, 1, 1] [false, false, true] rfl 0
      (by decide)⟩

/-- C4: the advantage is `A_t = G_t - V_t * mask_t` with
`mask_t = 1 - is_final_t`; on terminal steps only the state-value term is
zeroed while the return term `G_t` is kept. -/
theorem advantage_masks_value_only (gamma : ℚ) (steps : List A2CStep) (t : ℕ)
    (ht : t < steps.length) :
    (a2cAdvantage gamma steps).getD t 0 =
      (a2cReturns gamma steps).getD t 0 -
        (steps.getD t A2CStep.dflt).stateValue *
          (1 - (if (steps.getD t A2CStep.dflt).isFinal then 1 else 0)) ∧
    ((steps.getD t A2CStep.dflt).isFinal = true →
      (a2cAdvantage gamma steps).getD t 0 = (a2cReturns gamma steps).getD t 0) := by
  have hadv : t < (a2cAdvantage gamma steps).length := by
    rw [a2cAdvantage_length]; exact ht
  have hret : t < (a2cReturns gamma steps).length := by
    rw [a2cReturns_length]; exact ht
  have hmain : (a2cAdvantage gamma steps).getD t 0 =
      (a2cReturns gamma steps).getD t 0 -
        (steps.getD t A2CStep.dflt).stateValue *
          (if (steps.getD t A2CStep.dflt).isFinal then 0 else 1) := by
    rw [List.getD_eq_getElem _ _ hadv, List.getD_eq_getElem _ _ hret,
      List.getD_eq_getElem _ _ ht]
    unfold a2cAdvantage
    rw [List.getElem_zipWith]
  constructor
  · rw [hmain]
    by_cases hfin : (steps.getD t A2CStep.dflt).isFinal
    · rw [if_pos hfin, if_pos hfin]; ring
    · rw [if_neg hfin, if_neg hfin]; ring
  · intro hfin
    rw [hmain, hfin]
    simp

/-- C4 witness: a one-step episode whose single step is terminal: the
advantage is the raw return, with the state value dropped. -/
theorem advantage_masks_value_only_witness :
    0 < ([⟨1, 2, fun _ => 0, fun _ => 0, true⟩] : List A2CStep).length ∧
    ((a2cAdvantage (1 / 2) [⟨1, 2, fun _ => 0, fun _ => 0, true⟩]).getD 0 0 =
      (a2cReturns (1 / 2) [⟨1, 2, fun _ => 0, fun _ => 0, true⟩]).getD 0 0 -
        (([⟨1, 2, fun _ => 0, fun _ => 0, true⟩] : List A2CStep).getD 0
            A2CStep.dflt).stateValue *
          (1 - (if (([⟨1, 2, fun _ => 0, fun _ => 0, true⟩] : List A2CStep).getD 0
              A2CStep.dflt).isFinal then 1 else 0)) ∧
      ((([⟨1, 2, fun _ => 0, fun _ => 0, true⟩] : List A2CStep).getD 0
          A2CStep.dflt).isFinal = true →
        (a2cAdvantage (1 / 2) [⟨1, 2, fun _ => 0, fun _ => 0, true⟩]).getD 0 0 =
          (a2cReturns (1 / 2) [⟨1, 2, fun _ => 0, fun _ => 0, true⟩]).getD 0 0)) :=
  ⟨by decide, advantage_masks_value_only (1 / 2) _ 0 (by decide)⟩

/-- C5: the actor-critic training loss is
`policy loss + value loss - entropy_coeff * entropy`, with the policy loss
the sum over the three command slots of the mean of `-log_prob_slot` times
the (detached) advantage, the value loss `0.5 *` the mean squared
advantage, and the entropy term the mean of the stored per-slot entropies. -/
theorem actor_critic_loss_decomposition (gamma coeff : ℚ) (store : List A2CStep)
    (hne : store ≠ []) :
    getActorCriticLoss gamma coeff store =
      some ((∑ i : Fin 3,
              listMean ((store.zip (a2cAdvantage gamma store)).map
                (fun p => -(p.1.logProbs i) * p.2))) +
            (1 / 2) * listMean ((a2cAdvantage gamma store).map (fun a => a ^ 2)) -
            coeff * ((store.map (fun s => ∑ i : Fin 3, s.entropies i)).sum /
              (3 * store.length))) := by
  have hemp : store.isEmpty = false := by
    cases store with
    | nil => exact absurd rfl hne
    | cons a l => rfl
  rw [getActorCriticLoss, singleEpisodeGetBatch, hemp]
  simp only [Bool.false_eq_true, if_false]
  rw [actorCriticTotal, a2cPolicyLoss, foldl_slot_sum (a2cPolicySlot gamma store),
    a2cValueLoss, a2cEntropyLoss]
  rfl

/-- C5 witness: the decomposition applied to a concrete one-step episode. -/
theorem actor_critic_loss_decomposition_witness :
    (([A2CStep.dflt] : List A2CStep) ≠ []) ∧
    getActorCriticLoss (1 / 2) (1 / 100) [A2CStep.dflt] =
      some ((∑ i : Fin 3,
              listMean ((([A2CStep.dflt] : List A2CStep).zip
                  (a2cAdvantage (1 / 2) [A2CStep.dflt])).map
                (fun p => -(p.1.logProbs i) * p.2))) +
            (1 / 2) * listMean ((a2cAdvantage (1 / 2) [A2CStep.dflt]).map
              (fun a => a ^ 2)) -
            (1 / 100) * ((([A2CStep.dflt] : List A2CStep).map
              (fun s => ∑ i : Fin 3, s.entropies i)).sum /
                (3 * ([A2CStep.dflt] : List A2CStep).length))) :=
  ⟨List.cons_ne_nil _ _,
    actor_critic_loss_decomposition (1 / 2) (1 / 100) [A2CStep.dflt]
      (List.cons_ne_nil _ _)⟩

/-- C2: for a batch element whose predicted next-state distribution is
non-negative and sums to one, the projected target distribution `m` sums to
one over all atoms; and whenever `Tz` lands exactly on a support atom
(`floor(b) = ceil(b)`), one of the two bin indices is nudged by one
position: the lower bin is decremented when the upper bin is positive,
otherwise the upper bin is incremented. -/
theorem categorical_projection_mass (c : ProjConfig) (p : ℕ → ℚ)
    (h2 : 2 ≤ c.atoms) (hv : c.vMin < c.vMax) (hp0 : ∀ j, 0 ≤ p j)
    (hp1 : ∑ j ∈ Finset.range c.atoms, p j = 1) :
    (∑ k ∈ Finset.Icc (0 : ℤ) ((c.atoms : ℤ) - 1), projectedDist c p k = 1) ∧
    (∀ j, lFloor c j = uCeil c j →
      (0 < uCeil c j → lNudge c j = lFloor c j - 1 ∧ uNudge c j = uCeil c j) ∧
      (uCeil c j ≤ 0 → lNudge c j = lFloor c j ∧ uNudge c j = uCeil c j + 1)) := by
  refine ⟨projectedDist_sum c p h2 hv hp1, ?_⟩
  intro j heq
  have hatoms : (2 : ℤ) ≤ (c.atoms : ℤ) := by exact_mod_cast h2
  constructor
  · intro hu0
    have hlN : lNudge c j = lFloor c j - 1 := by
      rw [lNudge, if_pos ⟨hu0, heq⟩]
    refine ⟨hlN, ?_⟩
    rw [uNudge, if_neg]
    rintro ⟨-, habs⟩
    rw [hlN, heq] at habs
    omega
  · intro hu0
    have hlN : lNudge c j = lFloor c j := by
      rw [lNudge, if_neg]
      rintro ⟨habs, -⟩
      omega
    refine ⟨hlN, ?_⟩
    rw [uNudge, if_pos]
    exact ⟨by rw [hlN]; omega, by rw [hlN]; exact heq⟩

/-- C2 witness: the mass-conservation conclusion at a concrete
configuration (2 atoms, support `{0, 1}`, uniform next-state
distribution). -/
theorem categorical_projection_mass_witness :
    ((2 ≤ (⟨2, 0, 1, 0, 1⟩ : ProjConfig).atoms ∧
        (⟨2, 0, 1, 0, 1⟩ : ProjConfig).vMin < (⟨2, 0, 1, 0, 1⟩ : ProjConfig).vMax) ∧
      (∀ j : ℕ, (0 : ℚ) ≤ (1 : ℚ) / 2) ∧
      (∑ j ∈ Finset.range (⟨2, 0, 1, 0, 1⟩ : ProjConfig).atoms, ((1 : ℚ) / 2)) = 1) ∧
    (∑ k ∈ Finset.Icc (0 : ℤ)
        (((⟨2, 0, 1, 0, 1⟩ : ProjConfig).atoms : ℤ) - 1),
      projectedDist ⟨2, 0, 1, 0, 1⟩ (fun _ => 1 / 2) k = 1) :=
  ⟨⟨⟨by norm_num, by norm_num⟩, fun _ => by norm_num,
      by rw [Finset.sum_const]; norm_num⟩,
    (categorical_projection_mass ⟨2, 0, 1, 0, 1⟩ (fun _ => 1 / 2)
      (by norm_num) (by norm_num) (fun _ => by norm_num)
      (by rw [Finset.sum_const]; norm_num)).1⟩

/-- The non-distributional bootstrap target as claim C3 states it, with a
terminal factor (this follows the claim's words, to be compared with
`dqnTarget`, which is what the source computes). -/
def claimedDqnTarget (doubleDqn : Bool) (gamma : ℚ) (e : SampledElement) : ℚ :=
  e.sample.reward + gamma ^ e.sample.actualN * nextQValue doubleDqn e.sample *
    (if e.isTerminal then 0 else 1)

/-- A concrete sampled batch element: one-word vocabulary, reward 0,
`actual_n = 1`, all next-state scores 1; its episode ended inside the
n-step window. -/
def c3Sample : DqnSample :=
  ⟨0, 1, fun _ => 0, fun _ => [1], fun _ => [1], fun _ => [1]⟩

/-- C3 counterexample: on a terminal sampled element the target computed by
`get_dqn_loss` is `reward + gamma^actual_n * next_Q` (here `1/2`), not the
claimed `reward + gamma^actual_n * next_Q * 0 = 0`: the code applies no
terminal masking. -/
theorem dqn_target_no_terminal_mask_counterexample :
    dqnTarget true (1 / 2) (⟨c3Sample, true⟩ : SampledElement).sample = 1 / 2 ∧
    claimedDqnTarget true (1 / 2) ⟨c3Sample, true⟩ = 0 ∧
    dqnTarget true (1 / 2) (⟨c3Sample, true⟩ : SampledElement).sample ≠
      claimedDqnTarget true (1 / 2) ⟨c3Sample, true⟩ := by
  refine ⟨?_, ?_, ?_⟩
  · show (0 : ℚ) + (∑ i : Fin 3,
        (c3Sample.nextTargetRanks i).getD (nextSlotIdx true c3Sample i) 0) / 3 *
          (1 / 2) ^ 1 = 1 / 2
    norm_num [nextSlotIdx, chooseMaxQRow, c3Sample, listMin, argmaxIdx,
      Fin.sum_univ_three]
  · show (0 : ℚ) + (1 / 2) ^ 1 * nextQValue true c3Sample * 0 = 0
    ring
  · intro h
    rw [show claimedDqnTarget true (1 / 2) ⟨c3Sample, true⟩ =
        (0 : ℚ) + (1 / 2) ^ 1 * nextQValue true c3Sample * 0 from rfl] at h
    rw [show dqnTarget true (1 / 2) c3Sample =
        (0 : ℚ) + nextQValue true c3Sample * (1 / 2) ^ 1 from rfl] at h
    have hq : nextQValue true c3Sample = 1 := by
      show (∑ i : Fin 3,
        (c3Sample.nextTargetRanks i).getD (nextSlotIdx true c3Sample i) 0) / 3 = 1
      norm_num [nextSlotIdx, chooseMaxQRow, c3Sample, listMin, argmaxIdx,
        Fin.sum_univ_three]
    rw [hq] at h
    norm_num at h

/-- C3 amended: the bootstrap target of `get_dqn_loss` equals
`reward + gamma^actual_n * next_Q` with NO terminal factor (the sampled
batch carries no terminal flag), coinciding with the claimed formula
exactly on non-terminal elements; `next_Q` is the average over the three
command slots of the target network's score at the index selected by
`choose_maxQ_command` on the online network's ranks when double-DQN is on
and on the target network's ranks otherwise; the loss is the mean smooth-L1
distance between the averaged current Q and this target. -/
theorem dqn_target_formula (doubleDqn : Bool) (gamma : ℚ) (e : SampledElement)
    (batch : List DqnSample) :
    dqnTarget doubleDqn gamma e.sample =
      e.sample.reward + gamma ^ e.sample.actualN * nextQValue doubleDqn e.sample ∧
    (e.isTerminal = false →
      dqnTarget doubleDqn gamma e.sample = claimedDqnTarget doubleDqn gamma e) ∧
    nextQValue doubleDqn e.sample =
      (∑ i : Fin 3, (e.sample.nextTargetRanks i).getD
        (chooseMaxQRow (if doubleDqn then e.sample.nextOnlineRanks i
                        else e.sample.nextTargetRanks i) (e.sample.nextMask i)) 0) / 3 ∧
    dqnLossNonDist doubleDqn gamma batch =
      listMean (batch.map (fun s => smoothL1 (qValue s) (dqnTarget doubleDqn gamma s))) := by
  refine ⟨?_, ?_, rfl, rfl⟩
  · rw [dqnTarget, dqnDiscount]; ring
  · intro hterm
    rw [dqnTarget, dqnDiscount, claimedDqnTarget, hterm]
    simp only [Bool.false_eq_true, if_false, mul_one]
    ring

/-- C3 amended-claim witness: on a non-terminal element the code's target
agrees with the claimed formula. -/
theorem dqn_target_formula_witness :
    (⟨c3Sample, false⟩ : SampledElement).isTerminal = false ∧
    dqnTarget true (1 / 2) (⟨c3Sample, false⟩ : SampledElement).sample =
      claimedDqnTarget true (1 / 2) ⟨c3Sample, false⟩ :=
  ⟨rfl, (dqn_target_formula true (1 / 2) ⟨c3Sample, false⟩ []).2.1 rfl⟩

/-- C6: every Transition pushed into the command-generation replay memory
stores the shaped per-step reward: sufficient-information reward, plus the
counting bonus times the game-running mask times `revisit_counting_lambda`,
plus the valid-command bonus times the mask times
`valid_command_bonus_lambda`, plus the masked intrinsic reward when
intrinsic reward is enabled — the raw environment reward (`envReward`,
discarded by the training loop) does not enter. -/
theorem pushed_reward_is_shaped (useIntr : Bool) (lamCount lamValid : ℚ)
    (traj : List StepData) (t : ℕ)
    (ht : t < (pushTrajectory useIntr lamCount lamValid traj).length) :
    ((pushTrajectory useIntr lamCount lamValid traj).getD t ⟨0, false⟩).reward =
      (traj.getD t StepData.dflt).suffReward +
        (traj.getD t StepData.dflt).countReward *
          maskVal (traj.getD t StepData.dflt) * lamCount +
        (traj.getD t StepData.dflt).validReward *
          maskVal (traj.getD t StepData.dflt) * lamValid +
        (if useIntr then
          (traj.getD t StepData.dflt).intrinsicReward *
            maskVal (traj.getD t StepData.dflt)
         else 0) := by
  rw [pushTrajectory_reward useIntr lamCount lamValid traj t ht]
  rfl

/-- C6 witness: a one-step trajectory with distinct bonus components and a
raw environment reward of `5`; the pushed reward is the shaped sum `3+7+11+13`,
not `5`. -/
theorem pushed_reward_is_shaped_witness :
    0 < (pushTrajectory true 1 1 [⟨3, 7, 11, 13, 5, true⟩]).length ∧
    ((pushTrajectory true 1 1 [⟨3, 7, 11, 13, 5, true⟩]).getD 0 ⟨0, false⟩).reward =
      (([⟨3, 7, 11, 13, 5, true⟩] : List StepData).getD 0 StepData.dflt).suffReward +
        (([⟨3, 7, 11, 13, 5, true⟩] : List StepData).getD 0 StepData.dflt).countReward *
          maskVal (([⟨3, 7, 11, 13, 5, true⟩] : List StepData).getD 0 StepData.dflt) * 1 +
        (([⟨3, 7, 11, 13, 5, true⟩] : List StepData).getD 0 StepData.dflt).validReward *
          maskVal (([⟨3, 7, 11, 13, 5, true⟩] : List StepData).getD 0 StepData.dflt) * 1 +
        (if true then
          (([⟨3, 7, 11, 13, 5, true⟩] : List StepData).getD 0 StepData.dflt).intrinsicReward *
            maskVal (([⟨3, 7, 11, 13, 5, true⟩] : List StepData).getD 0 StepData.dflt)
         else 0) :=
  ⟨by decide, pushed_reward_is_shaped true 1 1 [⟨3, 7, 11, 13, 5, true⟩] 0 (by decide)⟩

/-- C7: for any game `b` of the batch, the Transitions pushed for its
trajectory have `is_final = true` exactly on the last one and `false` on
all earlier ones: the push loop breaks at the first zero mask, and the
step loop guarantees such a zero exists because the mask of the final
permitted step is forced to zero at the step limit. -/
theorem single_terminal_per_trajectory (rows : ℕ → ℕ → Bool)
    (batchSize maxSteps : ℕ) (useIntr : Bool) (lamCount lamValid : ℚ)
    (traj : List StepData) (b : ℕ) (h1 : 1 ≤ maxSteps) (hb : b < batchSize)
    (hmask : traj.map (·.mask) =
      (transitionCacheMasks rows batchSize maxSteps 0).map (fun r => r b)) :
    ∃ k, (pushTrajectory useIntr lamCount lamValid traj).map (·.isFinal) =
      List.replicate k false ++ [true] := by
  apply pushed_finals_shape
  have hf := cache_column_has_false rows batchSize maxSteps h1 b hb
  rw [← hmask] at hf
  obtain ⟨s, hs, hsm⟩ := List.mem_map.mp hf
  exact ⟨s, hs, hsm⟩

/-- C7 witness: a batch of one game, step cap 1 (the single step's mask is
forced to zero); the pushed trajectory is a single `is_final = true`
Transition. -/
theorem single_terminal_per_trajectory_witness :
    (1 ≤ 1 ∧ 0 < 1 ∧
      ([⟨0, 0, 0, 0, 0, false⟩] : List StepData).map (·.mask) =
        (transitionCacheMasks (fun _ _ => true) 1 1 0).map (fun r => r 0)) ∧
    ∃ k, (pushTrajectory false 1 1 [⟨0, 0, 0, 0, 0, false⟩]).map (·.isFinal) =
      List.replicate k false ++ [true] :=
  ⟨⟨le_refl 1, Nat.zero_lt_one, by rw [transitionCacheMasks]; rfl⟩,
    single_terminal_per_trajectory (fun _ _ => true) 1 1 false 1 1
      [⟨0, 0, 0, 0, 0, false⟩] 0 (le_refl 1) Nat.zero_lt_one
      (by rw [transitionCacheMasks]; rfl)⟩

/-- C8: per environment index, `get_binarized_count` with `update = True`
returns `1.0` exactly when the key's stored count is still zero (first
visit this episode) and `0.0` otherwise; with `update = True` the count is
incremented regardless of the returned value (and only the queried key is
touched); `reset_binarized_counter` empties every per-environment counter;
pushing the same key three times with `update = True` yields rewards
`[1.0, 0.0, 0.0]`, and again `[1.0, 0.0, 0.0]` after a reset. -/
theorem binarized_count_first_visit :
    (∀ (dicts : List (String → ℚ)) (obs : List String) (update : Bool),
      (getBinarizedCount dicts obs update).1 =
        (dicts.zip obs).map (fun p => (binarizedCountOne p.1 p.2 update).1)) ∧
    (∀ (dict : String → ℚ) (key : String),
      (binarizedCountOne dict key true).1 = (if dict key = 0 then 1 else 0)) ∧
    (∀ (dict : String → ℚ) (key : String),
      (binarizedCountOne dict key true).2 key = dict key + 1) ∧
    (∀ (dict : String → ℚ) (key other : String) (update : Bool), other ≠ key →
      (binarizedCountOne dict key update).2 other = dict other) ∧
    (∀ (n i : ℕ) (key : String),
      ((resetBinarizedCounter n).getD i (fun _ => 0)) key = 0) ∧
    ((getBinarizedCount (resetBinarizedCounter 1) ["k"] true).1 = [1] ∧
      (getBinarizedCount
        (getBinarizedCount (resetBinarizedCounter 1) ["k"] true).2 ["k"] true).1 = [0] ∧
      (getBinarizedCount
        (getBinarizedCount
          (getBinarizedCount (resetBinarizedCounter 1) ["k"] true).2
            ["k"] true).2 ["k"] true).1 = [0] ∧
      (getBinarizedCount (resetBinarizedCounter 1) ["k"] true).1 = [1]) := by
  refine ⟨?_, ?_, ?_, ?_, ?_,
    by norm_num [getBinarizedCount, binarizedCountOne, resetBinarizedCounter],
    by norm_num [getBinarizedCount, binarizedCountOne, resetBinarizedCounter],
    by norm_num [getBinarizedCount, binarizedCountOne, resetBinarizedCounter],
    by norm_num [getBinarizedCount, binarizedCountOne, resetBinarizedCounter]⟩
  · intro dicts obs update
    induction dicts generalizing obs with
    | nil => cases obs <;> rfl
    | cons d ds ih =>
      cases obs with
      | nil => rfl
      | cons k ks =>
        show (binarizedCountOne d k update).1 :: (getBinarizedCount ds ks update).1 = _
        rw [ih ks]
        rfl
  · intro dict key
    show (if (if key = key then dict key + 1 else dict key) = 1 then (1 : ℚ) else 0) = _
    rw [if_pos rfl]
    by_cases h : dict key = 0
    · rw [if_pos (by rw [h]; norm_num), if_pos h]
    · rw [if_neg (fun habs => h (by linarith)), if_neg h]
  · intro dict key
    show (if key = key then dict key + 1 else dict key) = dict key + 1
    rw [if_pos rfl]
  · intro dict key other update hne
    show (if other = key then _ else dict other) = dict other
    rw [if_neg hne]
  · intro n i key
    rw [resetBinarizedCounter_getD]

/-- C8 witness: an update of key `"k"` leaves the count of the distinct key
`"a"` untouched. -/
theorem binarized_count_first_visit_witness :
    ("a" : String) ≠ "k" ∧
    (binarizedCountOne (fun _ => (0 : ℚ)) "k" true).2 "a" = (fun _ => (0 : ℚ)) "a" :=
  ⟨by decide, binarized_count_first_visit.2.2.2.1 (fun _ => 0) "k" "a" true (by decide)⟩

/-- C9: with insufficient data — fewer stored transitions than the replay
batch size in DQN mode, or an empty episode store in actor-critic mode —
the loss computation returns `None` and `update_interaction` returns `None`
with no backward pass or optimizer step. -/
theorem insufficient_data_returns_none (doubleDqn : Bool)
    (gamma gamma2 coeff : ℚ) (memLen replayBatchSize : ℕ)
    (batchData : Option (List DqnSample)) :
    (memLen < replayBatchSize →
      getDqnLossOpt doubleDqn gamma memLen replayBatchSize batchData = none ∧
      updateInteraction
        (getDqnLossOpt doubleDqn gamma memLen replayBatchSize batchData) =
          (none, false)) ∧
    (getDqnLossOpt doubleDqn gamma memLen replayBatchSize none = none) ∧
    (getActorCriticLoss gamma2 coeff [] = none ∧
      updateInteraction (getActorCriticLoss gamma2 coeff []) = (none, false)) := by
  refine ⟨?_, ?_, rfl, rfl⟩
  · intro hlt
    have h : getDqnLossOpt doubleDqn gamma memLen replayBatchSize batchData = none := by
      rw [getDqnLossOpt.eq_def, if_pos hlt]
    exact ⟨h, by rw [h]; rfl⟩
  · rw [getDqnLossOpt.eq_def]
    by_cases hlt : memLen < replayBatchSize
    · rw [if_pos hlt]
    · rw [if_neg hlt]

/-- C9 witness: zero stored transitions against a replay batch size of one. -/
theorem insufficient_data_returns_none_witness :
    (0 < 1) ∧
    (getDqnLossOpt false (1 / 2) 0 1 none = none ∧
      updateInteraction (getDqnLossOpt false (1 / 2) 0 1 none) = (none, false)) :=
  ⟨Nat.zero_lt_one,
    (insufficient_data_returns_none false (1 / 2) (1 / 2) (1 / 100) 0 1 none).1
      Nat.zero_lt_one⟩

/-- C10: for any batch row and command slot, if the word mask is 0/1-valued
and contains at least one `1`, then `choose_maxQ_command` returns the index
of a word whose mask value is `1`: subtracting the row minimum and adding
`0.01` makes every allowed entry strictly positive before masked entries
are zeroed, so the argmax lands on an allowed word. -/
theorem maxq_respects_mask (scores mask : List ℚ)
    (hlen : mask.length = scores.length)
    (h01 : ∀ m ∈ mask, m = 0 ∨ m = 1)
    (hex : (1 : ℚ) ∈ mask) :
    mask.getD (chooseMaxQRow scores mask) 0 = 1 := by
  set shifted := scores.map (fun s => s - listMin scores + 1 / 100) with hshifted
  set masked := shifted.zipWith (fun s m => s * m) mask with hmasked
  have hshlen : shifted.length = scores.length := List.length_map _ _
  have hmlen : masked.length = mask.length := by
    rw [hmasked, List.length_zipWith, hshlen, ← hlen, min_self]
  have hmne : masked ≠ [] := by
    intro h
    have : mask.length = 0 := by rw [← hmlen, h]; rfl
    exact (List.ne_nil_of_mem hex) (List.length_eq_zero.mp this)
  have hj : chooseMaxQRow scores mask < masked.length :=
    argmaxIdx_lt_length hmne
  have hjm : chooseMaxQRow scores mask < mask.length := by omega
  have hjs : chooseMaxQRow scores mask < scores.length := by omega
  -- the entry of `masked` at an allowed index is strictly positive
  obtain ⟨i0, hi0, hmask1⟩ := List.mem_iff_getElem.mp hex
  have hi0s : i0 < scores.length := by omega
  have hi0m : i0 < masked.length := by omega
  have hi0sh : i0 < shifted.length := by omega
  have hpos : 0 < masked[i0] := by
    have : masked[i0] = shifted[i0] * mask[i0] := by
      simp only [hmasked, List.getElem_zipWith]
    rw [this, hmask1, mul_one]
    have hsh : shifted[i0] = scores[i0] - listMin scores + 1 / 100 := by
      simp only [hshifted, List.getElem_map]
    rw [hsh]
    have hmem : scores[i0] ∈ scores := List.getElem_mem hi0s
    have := listMin_le hmem
    linarith
  have hattain := argmaxIdx_attains hmne hj masked[i0] (List.getElem_mem hi0m)
  have hjpos : 0 < masked[chooseMaxQRow scores mask] := lt_of_lt_of_le hpos hattain
  have hjsh : chooseMaxQRow scores mask < shifted.length := by omega
  have hsplit : masked[chooseMaxQRow scores mask] =
      shifted[chooseMaxQRow scores mask] * mask[chooseMaxQRow scores mask] := by
    simp only [hmasked, List.getElem_zipWith]
  have hmaskj : mask[chooseMaxQRow scores mask] = 1 := by
    rcases h01 mask[chooseMaxQRow scores mask] (List.getElem_mem hjm) with h0 | h1
    · rw [hsplit, h0, mul_zero] at hjpos
      exact absurd hjpos (lt_irrefl 0)
    · exact h1
  rw [List.getD_eq_getElem _ _ hjm, hmaskj]

/-- C10 witness: scores `[3, 5, 2]` with mask `[1, 0, 1]`: the best allowed
word (index 0) is selected even though index 1 scores higher. -/
theorem maxq_respects_mask_witness :
    (([1, 0, 1] : List ℚ).length = ([3, 5, 2] : List ℚ).length ∧
      (∀ m ∈ ([1, 0, 1] : List ℚ), m = 0 ∨ m = 1) ∧
      (1 : ℚ) ∈ ([1, 0, 1] : List ℚ)) ∧
    ([1, 0, 1] : List ℚ).getD (chooseMaxQRow [3, 5, 2] [1, 0, 1]) 0 = 1 :=
  ⟨⟨rfl, by decide, by decide⟩,
    maxq_respects_mask [3, 5, 2] [1, 0, 1] rfl (by decide) (by decide)⟩

end IQA
